import Mathlib

/-!
# Verification of the text-anonymization core (`src/anonymizer.py`)

Shallow embedding of the span extraction and redaction logic of
`anonymize_with_stanza` and its two nested extractors
`_spans_from_doc_ents` and `_spans_from_tokens`.

Modelling choices:
* Python strings are `List Char`; Python `int` is `Int`.
* A span `(start, end, label)` is `Int × Int × List Char`.
* Python string slicing `s[a:b]` (total, clamping, negative indices count
  from the end) is `pySlice`; `s[a:]` is `pySliceFrom`.
* `str.split("-")` is `splitDash`, a structural port of Python's
  behaviour for a one-character separator.
* The parsed Stanza document is a `ParsedDoc`: an optional list of entity
  records (`doc.ents`, where `none` fields model attribute/conversion
  failures swallowed by the `try/except`) and a sentence/token structure.
-/

namespace Anonymizer

/-- A recognized entity span `(start_char, end_char, label)`. -/
abbrev Span : Type := Int × Int × List Char

/-- Normalisation of a Python slice index `i` against a string of length
`len`: a negative index counts from the end (clamped at 0), a non-negative
index is clamped at `len`. -/
def pyIdx (len : Nat) (i : Int) : Nat :=
  if i < 0 then ((len : Int) + i).toNat else min i.toNat len

/-- Python string slice `s[a:b]` (total; never raises). -/
def pySlice (s : List Char) (a b : Int) : List Char :=
  (s.take (pyIdx s.length b)).drop (pyIdx s.length a)

/-- Python string slice `s[a:]` (total; never raises). -/
def pySliceFrom (s : List Char) (a : Int) : List Char :=
  s.drop (pyIdx s.length a)

/-- The replacement text `f"[{label}]"` spliced in for a span. -/
def bracket (label : List Char) : List Char :=
  '[' :: label ++ [']']

/-- `sorted(spans, key=lambda x: x[0])`: stable sort by start offset. -/
def sortSpans (spans : List Span) : List Span :=
  spans.mergeSort fun x y => decide (x.1 ≤ y.1)

/-- The redaction sweep of `anonymize_with_stanza` (lines 128–137): walk
the sorted spans keeping `last_idx`, skip a span when `start >= end or
start < last_idx`, otherwise splice `text[last_idx:start]` and `[label]`
and continue from `end`; finally append `text[last_idx:]`. -/
def redactLoop (text : List Char) : List Span → Int → List Char
  | [], last_idx => pySliceFrom text last_idx
  | (s, e, label) :: rest, last_idx =>
    if s ≥ e ∨ s < last_idx then redactLoop text rest last_idx
    else pySlice text last_idx s ++ bracket label ++ redactLoop text rest e

/-- The full redaction pass over an arbitrary span list: sort by start,
then sweep from `last_idx = 0`. -/
def redact (text : List Char) (spans : List Span) : List Char :=
  redactLoop text (sortSpans spans) 0

/-- The subsequence of (sorted) spans the sweep accepts, i.e. those that
pass the `start >= end or start < last_idx` filter of lines 130–132. -/
def sweepAccept : List Span → Int → List Span
  | [], _ => []
  | (s, e, label) :: rest, last_idx =>
    if s ≥ e ∨ s < last_idx then sweepAccept rest last_idx
    else (s, e, label) :: sweepAccept rest e

/-- An entity record of `doc.ents`. A `none` field models the attribute
access or `int(...)`/`str(...)` conversion failing for that record, which
the `try/except` of lines 67–72 swallows. -/
structure RawEnt where
  start_char : Option Int
  end_char : Option Int
  type : Option (List Char)

/-- The `try` block of lines 67–72: all three conversions succeed or the
record yields nothing. -/
def convEnt (ent : RawEnt) : Option (Int × Int × List Char) :=
  match ent.start_char, ent.end_char, ent.type with
  | some s, some e, some t => some (s, e, t)
  | _, _, _ => none

/-- The entity loop of `_spans_from_doc_ents` (lines 66–74). -/
def entLoop : List RawEnt → List Span
  | [] => []
  | ent :: rest =>
    match convEnt ent with
    | none => entLoop rest
    | some (s, e, t) => if s < e then (s, e, t) :: entLoop rest else entLoop rest

/-- `_spans_from_doc_ents` (lines 61–75): `none` models a document without
an `ents` attribute (the `getattr` default); `if not ents` returns `[]`
for both `None` and the empty list. -/
def spans_from_doc_ents (ents : Option (List RawEnt)) : List Span :=
  match ents with
  | none => []
  | some l => entLoop l

/-- A token of the parsed document, carrying character offsets and its
NER tag (the `getattr(token, "ner", "O")` result). -/
structure Token where
  start_char : Int
  end_char : Int
  ner : List Char

/-- Python `tag.split("-")` for the one-character separator `'-'`:
`"" ↦ [""]`, `"I-PERSON" ↦ ["I","PERSON"]`, `"I-" ↦ ["I",""]`. -/
def splitDash : List Char → List (List Char)
  | [] => [[]]
  | c :: rest =>
    if c = '-' then [] :: splitDash rest
    else
      match splitDash rest with
      | r :: rs => (c :: r) :: rs
      | [] => [[c]]

/-- The mutable `cur_start`/`cur_end`/`cur_type` state of
`_spans_from_tokens`. -/
structure BioState where
  cur_start : Option Int
  cur_end : Option Int
  cur_type : Option (List Char)
deriving DecidableEq, Repr

/-- The all-`None` reset state. -/
def idle : BioState := ⟨none, none, none⟩

/-- The guarded emission `if cur_start is not None and cur_end is not None
and cur_type is not None: spans_local.append(...)` used at lines 87–88,
97–98 and 102–104. -/
def emitIfOpen (st : BioState) : List Span :=
  match st.cur_start, st.cur_end, st.cur_type with
  | some s, some e, some t => [(s, e, t)]
  | _, _, _ => []

/-- One iteration of the token loop of `_spans_from_tokens`
(lines 85–115): returns the spans appended for this token and the updated
state. -/
def bioStep (st : BioState) (tok : Token) : List Span × BioState :=
  if tok.ner = ['O'] then
    (emitIfOpen st, idle)
  else
    let parts := splitDash tok.ner
    let pre := parts.headD []
    let ent_type := parts.getLastD []
    if pre = ['B'] ∨ pre = ['S'] ∨ pre = ['U'] then
      if pre = ['S'] ∨ pre = ['U'] then
        (emitIfOpen st ++ [(tok.start_char, tok.end_char, ent_type)], idle)
      else
        (emitIfOpen st, ⟨some tok.start_char, some tok.end_char, some ent_type⟩)
    else if pre = ['I'] ∨ pre = ['E'] ∨ pre = ['L'] then
      match st.cur_start with
      | some cs =>
        if st.cur_type = some ent_type then
          if pre = ['E'] ∨ pre = ['L'] then
            ([(cs, tok.end_char, ent_type)], idle)
          else
            ([], ⟨some cs, some tok.end_char, st.cur_type⟩)
        else
          ([(tok.start_char, tok.end_char, ent_type)], idle)
      | none => ([(tok.start_char, tok.end_char, ent_type)], idle)
    else
      ([], st)

/-- The token loop over one sentence, threading the state. -/
def runTokens (st : BioState) : List Token → List Span × BioState
  | [] => ([], st)
  | tok :: rest =>
    let p := bioStep st tok
    let q := runTokens p.2 rest
    (p.1 ++ q.1, q.2)

/-- The end-of-sentence flush of lines 117–119: a fully-open span is
emitted and the state reset; otherwise the state is left untouched. -/
def endSentence (st : BioState) : List Span × BioState :=
  match st.cur_start, st.cur_end, st.cur_type with
  | some s, some e, some t => ([(s, e, t)], idle)
  | _, _, _ => ([], st)

/-- The sentence loop of `_spans_from_tokens`. -/
def sentLoop (st : BioState) : List (List Token) → List Span
  | [] => []
  | sent :: rest =>
    let p := runTokens st sent
    let q := endSentence p.2
    p.1 ++ q.1 ++ sentLoop q.2 rest

/-- `_spans_from_tokens` (lines 77–121), starting from the all-`None`
state. The state left after the final sentence is discarded, as in the
source. -/
def spans_from_tokens (sentences : List (List Token)) : List Span :=
  sentLoop idle sentences

/-- The parsed-document handle returned by the tagger: the optional
`doc.ents` list and the sentence → token structure. -/
structure ParsedDoc where
  ents : Option (List RawEnt)
  sentences : List (List Token)

/-- Lines 123–125: primary extraction, with token-based fallback when the
primary path yields no spans. -/
def extractSpans (doc : ParsedDoc) : List Span :=
  let spans := spans_from_doc_ents doc.ents
  if spans.isEmpty then spans_from_tokens doc.sentences else spans

/-- `anonymize_with_stanza` after the tagger call: extract spans from the
parsed document, then run the redaction sweep over the input text. -/
def anonymize_with_stanza (doc : ParsedDoc) (text : List Char) : List Char :=
  redact text (extractSpans doc)

/-- The chain invariant of the sweep: starting from `last_idx`, every span
starts no earlier than `last_idx`, is non-degenerate, and the rest chains
from its end. -/
def SpanChain : Int → List Span → Prop
  | _, [] => True
  | last_idx, sp :: rest => last_idx ≤ sp.1 ∧ sp.1 < sp.2.1 ∧ SpanChain sp.2.1 rest

/-- Spec-side: position `i` of the input is covered by some accepted span. -/
def coveredBy (acc : List Span) (i : Nat) : Bool :=
  acc.any fun sp => decide (sp.1 ≤ (i : Int) ∧ (i : Int) < sp.2.1)

/-- Spec-side (from the spec's words): the characters of `text` lying
outside every accepted span, each taken once, in original order. -/
def outsideChars (text : List Char) (acc : List Span) : List Char :=
  (text.enum.filter fun p => ! coveredBy acc p.1).map Prod.snd

/-- The verbatim gap segments the sweep copies: the text between
`last_idx` and each accepted span's start, and the tail after the last
accepted span. -/
def gapSegs (text : List Char) : List Span → Int → List (List Char)
  | [], last_idx => [pySliceFrom text last_idx]
  | (s, e, _) :: rest, last_idx => pySlice text last_idx s :: gapSegs text rest e

/-- Spec-side picture of the output: gap segments interleaved with the
bracketed labels of the accepted spans. -/
def weave : List (List Char) → List (List Char) → List Char
  | [g], [] => g
  | g :: gs, lab :: labs => g ++ bracket lab ++ weave gs labs
  | _, _ => []

/-- Per-sentence well-formedness of the tagger's token offsets: each token
has `start_char < end_char` and the (remaining) tokens lie at or beyond a
left bound, in non-overlapping order. -/
def TokChain : Int → List Token → Prop
  | _, [] => True
  | m, tok :: rest =>
    m ≤ tok.start_char ∧ tok.start_char < tok.end_char ∧ TokChain tok.end_char rest

/-- A well-formed sentence: its tokens are non-degenerate and in
non-overlapping left-to-right order. -/
def WFSent : List Token → Prop
  | [] => True
  | tok :: rest => tok.start_char < tok.end_char ∧ TokChain tok.end_char rest

/-- The state invariant of the fallback sweep: either all-`None`, or a
fully-open span `(cs, ce)` with `cs < ce` that ends at or before the left
bound `m` of the tokens still to come. -/
def BioInv (st : BioState) (m : Int) : Prop :=
  st = idle ∨ ∃ cs ce t, st = ⟨some cs, some ce, some t⟩ ∧ cs < ce ∧ ce ≤ m

/-- The redaction sweep rewritten in an error monad: the Python body's
only primitive operations (slicing, formatting, concatenation) are total
and raise nothing, so no branch produces an `Except.error`. -/
def redactLoopE (text : List Char) : List Span → Int → Except String (List Char)
  | [], last_idx => .ok (pySliceFrom text last_idx)
  | (s, e, label) :: rest, last_idx =>
    if s ≥ e ∨ s < last_idx then redactLoopE text rest last_idx
    else do
      let tail ← redactLoopE text rest e
      .ok (pySlice text last_idx s ++ bracket label ++ tail)

/-- The full redaction pass in the error monad. -/
def redactE (text : List Char) (spans : List Span) : Except String (List Char) :=
  redactLoopE text (sortSpans spans) 0

theorem sortSpans_of_sorted {spans : List Span}
    (h : List.Pairwise (fun a b : Span => decide (a.1 ≤ b.1) = true) spans) :
    sortSpans spans = spans :=
  List.mergeSort_of_sorted h

theorem redact_of_sorted {text : List Char} {spans : List Span}
    (h : List.Pairwise (fun a b : Span => decide (a.1 ≤ b.1) = true) spans) :
    redact text spans = redactLoop text spans 0 := by
  rw [redact, sortSpans_of_sorted h]

/-- C3, counterexample: with spans `A=(0,5,"PERSON")` and `B=(3,8,"ORG")`
on the input `"Alice Bobson here"`, the code's output is not
`"[PERSON]son here"`: after accepting `A` the sweep resumes copying at
`A`'s end offset 5, not at `B`'s end offset 8. -/
theorem c3_output_counterexample :
    redact "Alice Bobson here".toList
        [(0, 5, "PERSON".toList), (3, 8, "ORG".toList)]
      ≠ "[PERSON]son here".toList := by
  rw [redact_of_sorted (by decide)]
  decide

/-- C3, amended: with candidate spans `A=(0,5,"PERSON")` and
`B=(3,8,"ORG")` on the input `"Alice Bobson here"`, the sweep keeps `A`
and discards `B` entirely (`B` is not truncated), and the output is
`"[PERSON] Bobson here"`. -/
theorem c3_overlap_resolution :
    sweepAccept (sortSpans [(0, 5, "PERSON".toList), (3, 8, "ORG".toList)]) 0
        = [(0, 5, "PERSON".toList)]
      ∧ redact "Alice Bobson here".toList
          [(0, 5, "PERSON".toList), (3, 8, "ORG".toList)]
        = "[PERSON] Bobson here".toList := by
  constructor
  · rw [sortSpans_of_sorted (by decide)]
    decide
  · rw [redact_of_sorted (by decide)]
    decide

/-- C4: on the single sentence with tokens `"Barack"(0,6) : B-PERSON`,
`"Obama"(7,12) : I-PERSON`, `"visited"(13,20) : O`, the fallback extractor
yields exactly `[(0,12,"PERSON")]`, and redacting
`"Barack Obama visited."` with that span list yields
`"[PERSON] visited."`. -/
theorem c4_fallback_reconstruction :
    spans_from_tokens
        [[⟨0, 6, "B-PERSON".toList⟩, ⟨7, 12, "I-PERSON".toList⟩,
          ⟨13, 20, "O".toList⟩]]
      = [(0, 12, "PERSON".toList)]
      ∧ redact "Barack Obama visited.".toList [(0, 12, "PERSON".toList)]
        = "[PERSON] visited.".toList := by
  refine ⟨by decide, ?_⟩
  rw [redact_of_sorted (by decide)]
  decide

/-- C9: redacting any input with an empty span list returns the input
unchanged. -/
theorem c9_empty_spans_identity (text : List Char) : redact text [] = text := by
  simp [redact, sortSpans, redactLoop, pySliceFrom, pyIdx]

/-- C5: a token carrying a continuation tag (prefix `I`, `E`, or `L`)
while no span is open, or while the open span's type differs from the
token's type, makes the fallback extractor emit a standalone one-token
span with the token's own bounds and type and clear the open-span state;
in particular the tag sequence `O, I-PERSON` over tokens `(0,3)` and
`(4,9)` yields exactly the standalone span `(4,9,"PERSON")`. -/
theorem c5_malformed_continuation :
    (∀ (st : BioState) (tok : Token), tok.ner ≠ ['O'] →
      ((splitDash tok.ner).headD [] = ['I'] ∨ (splitDash tok.ner).headD [] = ['E']
        ∨ (splitDash tok.ner).headD [] = ['L']) →
      (st.cur_start = none ∨ st.cur_type ≠ some ((splitDash tok.ner).getLastD [])) →
      bioStep st tok
        = ([(tok.start_char, tok.end_char, (splitDash tok.ner).getLastD [])], idle))
      ∧ spans_from_tokens [[⟨0, 3, "O".toList⟩, ⟨4, 9, "I-PERSON".toList⟩]]
        = [(4, 9, "PERSON".toList)] := by
  constructor
  · intro st tok h1 hpre hbad
    have hB : ¬ ((splitDash tok.ner).headD [] = ['B'] ∨ (splitDash tok.ner).headD [] = ['S']
        ∨ (splitDash tok.ner).headD [] = ['U']) := by
      rcases hpre with h | h | h <;> rw [h] <;> decide
    obtain ⟨s0, e0, t0⟩ := st
    simp only [bioStep]
    rw [if_neg h1, if_neg hB, if_pos hpre]
    cases s0 with
    | none => rfl
    | some cs =>
      have ht : t0 ≠ some ((splitDash tok.ner).getLastD []) := by
        rcases hbad with h | h
        · exact absurd h (by simp)
        · exact h
      simp only [if_neg ht]
  · decide

/-- C5 witness: the general statement applied to the open state
`(1, 3, "ORG")` and the token `(4, 9, "I-PERSON")`, whose type disagrees
with the open span's type. -/
theorem c5_malformed_continuation_witness :
    (("I-PERSON".toList ≠ ['O'])
        ∧ ((splitDash "I-PERSON".toList).headD [] = ['I']
          ∨ (splitDash "I-PERSON".toList).headD [] = ['E']
          ∨ (splitDash "I-PERSON".toList).headD [] = ['L']))
      ∧ bioStep ⟨some 1, some 3, some "ORG".toList⟩ ⟨4, 9, "I-PERSON".toList⟩
        = ([(4, 9, "PERSON".toList)], idle) :=
  ⟨⟨by decide, by decide⟩,
    c5_malformed_continuation.1 ⟨some 1, some 3, some "ORG".toList⟩
      ⟨4, 9, "I-PERSON".toList⟩ (by decide) (by decide) (by decide)⟩

/-- C10: a token whose tag is neither `"O"` nor prefixed by one of
`B, S, U, I, E, L` is ignored entirely by the fallback extractor: no span
is emitted for it and the sweep state is left exactly as it was. -/
theorem c10_unknown_prefix_ignored (st : BioState) (tok : Token)
    (h1 : tok.ner ≠ ['O'])
    (h2 : ¬ ((splitDash tok.ner).headD [] = ['B'] ∨ (splitDash tok.ner).headD [] = ['S']
      ∨ (splitDash tok.ner).headD [] = ['U']))
    (h3 : ¬ ((splitDash tok.ner).headD [] = ['I'] ∨ (splitDash tok.ner).headD [] = ['E']
      ∨ (splitDash tok.ner).headD [] = ['L'])) :
    bioStep st tok = ([], st) := by
  simp only [bioStep]
  rw [if_neg h1, if_neg h2, if_neg h3]

/-- C10 witness: a token tagged `"X-FOO"` with an open `"PERSON"` span:
the step emits nothing and keeps the state. -/
theorem c10_unknown_prefix_ignored_witness :
    ("X-FOO".toList ≠ ['O'])
      ∧ bioStep ⟨some 0, some 2, some "PERSON".toList⟩ ⟨5, 7, "X-FOO".toList⟩
        = ([], ⟨some 0, some 2, some "PERSON".toList⟩) :=
  ⟨by decide,
    c10_unknown_prefix_ignored ⟨some 0, some 2, some "PERSON".toList⟩
      ⟨5, 7, "X-FOO".toList⟩ (by decide) (by decide) (by decide)⟩

theorem sweepAccept_chain (l : List Span) (last_idx : Int) :
    SpanChain last_idx (sweepAccept l last_idx) := by
  induction l generalizing last_idx with
  | nil => trivial
  | cons sp rest ih =>
    obtain ⟨s, e, lab⟩ := sp
    by_cases h : s ≥ e ∨ s < last_idx
    · simp only [sweepAccept, if_pos h]
      exact ih last_idx
    · push_neg at h
      simp only [sweepAccept, if_neg (by push_neg; exact h : ¬ (s ≥ e ∨ s < last_idx))]
      exact ⟨h.2, h.1, ih e⟩

theorem sweepAccept_sublist (l : List Span) (last_idx : Int) :
    (sweepAccept l last_idx).Sublist l := by
  induction l generalizing last_idx with
  | nil => simp [sweepAccept]
  | cons sp rest ih =>
    obtain ⟨s, e, lab⟩ := sp
    by_cases h : s ≥ e ∨ s < last_idx
    · simp only [sweepAccept, if_pos h]
      exact (ih last_idx).cons _
    · simp only [sweepAccept, if_neg h]
      exact (ih e).cons₂ _

theorem spanChain_lb {m : Int} {l : List Span} (h : SpanChain m l) :
    ∀ sp ∈ l, m ≤ sp.1 := by
  induction l generalizing m with
  | nil => simp
  | cons sp rest ih =>
    obtain ⟨h1, h2, h3⟩ := h
    intro x hx
    rcases List.mem_cons.1 hx with rfl | hx
    · exact h1
    · exact le_trans (le_of_lt (lt_of_le_of_lt h1 h2)) (ih h3 x hx)

theorem spanChain_nondegenerate {m : Int} {l : List Span} (h : SpanChain m l) :
    ∀ sp ∈ l, sp.1 < sp.2.1 := by
  induction l generalizing m with
  | nil => simp
  | cons sp rest ih =>
    obtain ⟨h1, h2, h3⟩ := h
    intro x hx
    rcases List.mem_cons.1 hx with rfl | hx
    · exact h2
    · exact ih h3 x hx

theorem spanChain_nonoverlap {m : Int} {l : List Span} (h : SpanChain m l) :
    l.Chain' fun a b => a.2.1 ≤ b.1 := by
  induction l generalizing m with
  | nil => exact List.chain'_nil
  | cons sp rest ih =>
    obtain ⟨h1, h2, h3⟩ := h
    exact List.chain'_cons'.2 ⟨fun y hy => by
      cases rest with
      | nil => simp at hy
      | cons b bs => simp at hy; subst hy; exact h3.1, ih h3⟩

theorem spanChain_strict {m : Int} {l : List Span} (h : SpanChain m l) :
    l.Chain' fun a b => a.1 < b.1 := by
  induction l generalizing m with
  | nil => exact List.chain'_nil
  | cons sp rest ih =>
    obtain ⟨h1, h2, h3⟩ := h
    exact List.chain'_cons'.2 ⟨fun y hy => by
      cases rest with
      | nil => simp at hy
      | cons b bs =>
        simp at hy; subst hy
        exact lt_of_lt_of_le h2 h3.1, ih h3⟩

theorem entLoop_append (l1 l2 : List RawEnt) :
    entLoop (l1 ++ l2) = entLoop l1 ++ entLoop l2 := by
  induction l1 with
  | nil => simp [entLoop]
  | cons ent rest ih =>
    simp only [List.cons_append, entLoop]
    cases convEnt ent with
    | none => exact ih
    | some v =>
      obtain ⟨s, e, t⟩ := v
      by_cases h : s < e
      · simp only [List.append_eq, if_pos h, ih, List.cons_append]
      · simp only [List.append_eq, if_neg h, ih]

/-- C8: the primary extractor returns exactly the successfully converted,
non-degenerate records — a record whose conversion fails, or whose
converted offsets satisfy `start >= end`, is skipped on its own while
extraction continues over the surrounding records. -/
theorem c8_primary_path_localization :
    (∀ ents : List RawEnt,
      spans_from_doc_ents (some ents)
        = ents.filterMap fun ent =>
            match convEnt ent with
            | some (s, e, t) => if s < e then some (s, e, t) else none
            | none => none)
      ∧ (∀ (l1 l2 : List RawEnt) (bad : RawEnt), convEnt bad = none →
          spans_from_doc_ents (some (l1 ++ bad :: l2))
            = spans_from_doc_ents (some l1) ++ spans_from_doc_ents (some l2))
      ∧ (∀ (l1 l2 : List RawEnt) (bad : RawEnt) (s e : Int) (t : List Char),
          convEnt bad = some (s, e, t) → e ≤ s →
          spans_from_doc_ents (some (l1 ++ bad :: l2))
            = spans_from_doc_ents (some l1) ++ spans_from_doc_ents (some l2)) := by
  refine ⟨?_, ?_, ?_⟩
  · intro ents
    induction ents with
    | nil => rfl
    | cons ent rest ih =>
      simp only [spans_from_doc_ents, entLoop, List.filterMap_cons] at ih ⊢
      cases convEnt ent with
      | none => exact ih
      | some v =>
        obtain ⟨s, e, t⟩ := v
        by_cases h : s < e
        · simp only [if_pos h, ih]
        · simp only [if_neg h, ih]
  · intro l1 l2 bad hbad
    simp only [spans_from_doc_ents, entLoop_append]
    simp only [entLoop, hbad]
  · intro l1 l2 bad s e t hbad hdeg
    simp only [spans_from_doc_ents, entLoop_append]
    simp only [entLoop, hbad, if_neg (not_lt.2 hdeg)]

/-- C8 witness: a record with a missing start offset sitting between two
good records is skipped on its own. -/
theorem c8_primary_path_localization_witness :
    (convEnt ⟨none, some 5, some "X".toList⟩ = none)
      ∧ spans_from_doc_ents
          (some [⟨some 0, some 2, some "A".toList⟩, ⟨none, some 5, some "X".toList⟩,
            ⟨some 6, some 9, some "B".toList⟩])
        = spans_from_doc_ents (some [⟨some 0, some 2, some "A".toList⟩])
            ++ spans_from_doc_ents (some [⟨some 6, some 9, some "B".toList⟩]) :=
  ⟨by decide,
    c8_primary_path_localization.2.1 [⟨some 0, some 2, some "A".toList⟩]
      [⟨some 6, some 9, some "B".toList⟩] ⟨none, some 5, some "X".toList⟩ (by decide)⟩

theorem entLoop_nondegenerate (ents : List RawEnt) :
    ∀ sp ∈ entLoop ents, sp.1 < sp.2.1 := by
  induction ents with
  | nil => simp [entLoop]
  | cons ent rest ih =>
    simp only [entLoop]
    cases convEnt ent with
    | none => exact ih
    | some v =>
      obtain ⟨s, e, t⟩ := v
      by_cases h : s < e
      · simp only [if_pos h]
        intro sp hsp
        rcases List.mem_cons.1 hsp with rfl | hsp
        · exact h
        · exact ih sp hsp
      · simp only [if_neg h]
        exact ih

theorem bioInv_mono {st : BioState} {m m' : Int} (h : BioInv st m) (hm : m ≤ m') :
    BioInv st m' := by
  rcases h with h | ⟨cs, ce, t, rfl, h1, h2⟩
  · exact Or.inl h
  · exact Or.inr ⟨cs, ce, t, rfl, h1, le_trans h2 hm⟩

theorem emitIfOpen_of_inv {st : BioState} {m : Int} (h : BioInv st m) :
    ∀ sp ∈ emitIfOpen st, sp.1 < sp.2.1 := by
  rcases h with h | ⟨cs, ce, t, rfl, h1, h2⟩
  · subst h
    intro sp hsp
    simp [emitIfOpen, idle] at hsp
  · intro sp hsp
    simp only [emitIfOpen, List.mem_singleton] at hsp
    subst hsp
    exact h1

theorem bioStep_inv (st : BioState) (tok : Token)
    (hst : BioInv st tok.start_char) (htok : tok.start_char < tok.end_char) :
    (∀ sp ∈ (bioStep st tok).1, sp.1 < sp.2.1)
      ∧ BioInv (bioStep st tok).2 tok.end_char := by
  have hemit := emitIfOpen_of_inv hst
  simp only [bioStep]
  by_cases hO : tok.ner = ['O']
  · rw [if_pos hO]
    exact ⟨hemit, Or.inl rfl⟩
  · rw [if_neg hO]
    by_cases hB : (splitDash tok.ner).headD [] = ['B'] ∨ (splitDash tok.ner).headD [] = ['S']
        ∨ (splitDash tok.ner).headD [] = ['U']
    · rw [if_pos hB]
      by_cases hSU : (splitDash tok.ner).headD [] = ['S'] ∨ (splitDash tok.ner).headD [] = ['U']
      · rw [if_pos hSU]
        refine ⟨?_, Or.inl rfl⟩
        intro sp hsp
        rcases List.mem_append.1 hsp with h | h
        · exact hemit sp h
        · rw [List.mem_singleton.1 h]
          exact htok
      · rw [if_neg hSU]
        exact ⟨hemit, Or.inr ⟨_, _, _, rfl, htok, le_refl _⟩⟩
    · rw [if_neg hB]
      by_cases hIEL : (splitDash tok.ner).headD [] = ['I'] ∨ (splitDash tok.ner).headD [] = ['E']
          ∨ (splitDash tok.ner).headD [] = ['L']
      · rw [if_pos hIEL]
        rcases hst with h | ⟨cs, ce, t, rfl, h1, h2⟩
        · subst h
          refine ⟨?_, Or.inl rfl⟩
          intro sp hsp
          simp only [idle, List.mem_singleton] at hsp
          rw [hsp]
          exact htok
        · dsimp only
          by_cases hty : (some t : Option (List Char)) = some ((splitDash tok.ner).getLastD [])
          · rw [if_pos hty]
            by_cases hEL : (splitDash tok.ner).headD [] = ['E'] ∨ (splitDash tok.ner).headD [] = ['L']
            · rw [if_pos hEL]
              refine ⟨?_, Or.inl rfl⟩
              intro sp hsp
              rw [List.mem_singleton.1 hsp]
              exact lt_of_lt_of_le h1 (le_trans h2 (le_of_lt htok))
            · rw [if_neg hEL]
              refine ⟨by simp, Or.inr ⟨cs, tok.end_char, t, rfl, ?_, le_refl _⟩⟩
              exact lt_of_lt_of_le h1 (le_trans h2 (le_of_lt htok))
          · rw [if_neg hty]
            refine ⟨?_, Or.inl rfl⟩
            intro sp hsp
            rw [List.mem_singleton.1 hsp]
            exact htok
      · rw [if_neg hIEL]
        exact ⟨by simp, bioInv_mono hst (le_of_lt htok)⟩

theorem runTokens_inv (ts : List Token) (st : BioState) (m : Int)
    (hc : TokChain m ts) (hst : BioInv st m) :
    (∀ sp ∈ (runTokens st ts).1, sp.1 < sp.2.1)
      ∧ ∃ m', BioInv (runTokens st ts).2 m' := by
  induction ts generalizing st m with
  | nil => exact ⟨by simp [runTokens], m, hst⟩
  | cons tok rest ih =>
    obtain ⟨hm, hse, hc'⟩ := hc
    obtain ⟨hem, hinv⟩ := bioStep_inv st tok (bioInv_mono hst hm) hse
    obtain ⟨hems, m', hinv'⟩ := ih (bioStep st tok).2 tok.end_char hc' hinv
    simp only [runTokens]
    refine ⟨?_, m', hinv'⟩
    intro sp hsp
    rcases List.mem_append.1 hsp with h | h
    · exact hem sp h
    · exact hems sp h

theorem endSentence_of_inv {st : BioState} {m : Int} (h : BioInv st m) :
    (∀ sp ∈ (endSentence st).1, sp.1 < sp.2.1) ∧ (endSentence st).2 = idle := by
  rcases h with h | ⟨cs, ce, t, rfl, h1, h2⟩
  · subst h
    exact ⟨by simp [endSentence, idle], rfl⟩
  · refine ⟨?_, rfl⟩
    intro sp hsp
    simp only [endSentence, List.mem_singleton] at hsp
    rw [hsp]
    exact h1

theorem sentLoop_nondegenerate (sentences : List (List Token))
    (hws : ∀ sent ∈ sentences, WFSent sent) :
    ∀ sp ∈ sentLoop idle sentences, sp.1 < sp.2.1 := by
  induction sentences with
  | nil => simp [sentLoop]
  | cons sent rest ih =>
    have hsent : WFSent sent := hws sent (List.mem_cons_self _ _)
    have hchain : ∃ m, TokChain m sent := by
      cases sent with
      | nil => exact ⟨0, trivial⟩
      | cons t ts => exact ⟨t.start_char, le_refl _, hsent.1, hsent.2⟩
    obtain ⟨m, hchain⟩ := hchain
    obtain ⟨hem, m', hinv⟩ := runTokens_inv sent idle m hchain (Or.inl rfl)
    obtain ⟨hem2, hidle⟩ := endSentence_of_inv hinv
    simp only [sentLoop, hidle]
    intro sp hsp
    rcases List.mem_append.1 hsp with h | h
    · rcases List.mem_append.1 h with h' | h'
      · exact hem sp h'
      · exact hem2 sp h'
    · exact ih (fun s hs => hws s (List.mem_cons_of_mem _ hs)) sp h

/-- C6, counterexample: the claim as stated fails on the fallback path —
a document whose primary path is empty and whose single token is
`(3, 3, "S-GPE")` makes the extractor emit the degenerate span
`(3, 3, "GPE")`, since `_spans_from_tokens` never checks `start < end`. -/
theorem c6_degenerate_counterexample :
    ¬ ∀ sp ∈ extractSpans ⟨some [], [[⟨3, 3, "S-GPE".toList⟩]]⟩, sp.1 < sp.2.1 := by
  decide

/-- C6, amended: every span emitted on the primary `doc.ents` path
satisfies `start < end` for every parsed document; on the token fallback
path the guarantee holds provided each sentence's tokens are well-formed
(each token has `start_char < end_char` and the tokens sit in
non-overlapping left-to-right order). -/
theorem c6_spans_nondegenerate :
    (∀ ents : Option (List RawEnt), ∀ sp ∈ spans_from_doc_ents ents, sp.1 < sp.2.1)
      ∧ (∀ sentences : List (List Token), (∀ sent ∈ sentences, WFSent sent) →
          ∀ sp ∈ spans_from_tokens sentences, sp.1 < sp.2.1) := by
  constructor
  · intro ents
    cases ents with
    | none => simp [spans_from_doc_ents]
    | some l => exact entLoop_nondegenerate l
  · intro sentences hws
    exact sentLoop_nondegenerate sentences hws

/-- C6 witness: the amended fallback guarantee applied to the well-formed
single-token sentence `(0, 5, "S-GPE")` and the span `(0, 5, "GPE")` it
emits. -/
theorem c6_spans_nondegenerate_witness :
    WFSent [⟨0, 5, "S-GPE".toList⟩]
      ∧ ((0, 5, "GPE".toList) : Span).1 < ((0, 5, "GPE".toList) : Span).2.1 :=
  ⟨⟨by norm_num, trivial⟩,
    c6_spans_nondegenerate.2 [[⟨0, 5, "S-GPE".toList⟩]]
      (fun s hs => by rw [List.mem_singleton.1 hs]; exact ⟨by norm_num, trivial⟩)
      (0, 5, "GPE".toList) (by decide)⟩

/-- C2: for every span list, the subsequence of sorted spans accepted by
the sweep (a) is a sublist of the sorted list — accepted spans are kept
verbatim, never truncated or merged, (b) contains no degenerate span
(`start < end` for all of them), (c) is non-overlapping (each accepted
span's end is at most the next accepted span's start), and (d) is
strictly ordered by start. -/
theorem c2_accepted_span_invariant (spans : List Span) :
    (sweepAccept (sortSpans spans) 0).Sublist (sortSpans spans)
      ∧ (∀ sp ∈ sweepAccept (sortSpans spans) 0, sp.1 < sp.2.1)
      ∧ ((sweepAccept (sortSpans spans) 0).Chain' fun a b => a.2.1 ≤ b.1)
      ∧ ((sweepAccept (sortSpans spans) 0).Chain' fun a b => a.1 < b.1) :=
  ⟨sweepAccept_sublist _ _,
    spanChain_nondegenerate (sweepAccept_chain _ _),
    spanChain_nonoverlap (sweepAccept_chain _ _),
    spanChain_strict (sweepAccept_chain _ _)⟩

theorem take_min_length (l : List Char) (a : Nat) : l.take (min a l.length) = l.take a := by
  rcases le_total a l.length with h | h
  · rw [min_eq_left h]
  · rw [min_eq_right h, List.take_length, List.take_of_length_le h]

theorem drop_min_of_le {L : Nat} (x : List Char) (a : Nat) (h : x.length ≤ L) :
    x.drop (min a L) = x.drop a := by
  rcases le_total a L with h' | h'
  · rw [min_eq_left h']
  · rw [min_eq_right h']
    rw [List.drop_of_length_le h, List.drop_of_length_le (le_trans h h')]

theorem pySlice_nonneg (s : List Char) {a b : Int} (ha : 0 ≤ a) (hb : 0 ≤ b) :
    pySlice s a b = (s.take b.toNat).drop a.toNat := by
  rw [pySlice, pyIdx, pyIdx, if_neg (not_lt.2 ha), if_neg (not_lt.2 hb)]
  rw [take_min_length]
  exact drop_min_of_le _ _ (by rw [List.length_take]; exact min_le_right _ _)

theorem pySliceFrom_nonneg (s : List Char) {a : Int} (ha : 0 ≤ a) :
    pySliceFrom s a = s.drop a.toNat := by
  rw [pySliceFrom, pyIdx, if_neg (not_lt.2 ha)]
  exact drop_min_of_le _ _ (le_refl _)

theorem redactLoop_eq_weave (text : List Char) (l : List Span) (last_idx : Int) :
    redactLoop text l last_idx
      = weave (gapSegs text (sweepAccept l last_idx) last_idx)
          ((sweepAccept l last_idx).map fun sp => sp.2.2) := by
  induction l generalizing last_idx with
  | nil => simp [redactLoop, sweepAccept, gapSegs, weave]
  | cons sp rest ih =>
    obtain ⟨s, e, lab⟩ := sp
    by_cases h : s ≥ e ∨ s < last_idx
    · simp only [redactLoop, sweepAccept, if_pos h]
      exact ih last_idx
    · simp only [redactLoop, sweepAccept, if_neg h, gapSegs, List.map_cons, weave]
      rw [ih e]

theorem filter_enumFrom_nil_of_ge {α : Type} (t : List α) (k m : Nat) (P : Nat × α → Bool)
    (hP : ∀ p, P p = true → p.1 < m) (hk : m ≤ k) :
    (t.enumFrom k).filter P = [] := by
  induction t generalizing k with
  | nil => simp
  | cons c cs ih =>
    rw [List.enumFrom_cons, List.filter_cons]
    have hnc : ¬ P (k, c) = true := fun h => absurd (hP _ h) (not_lt.2 hk)
    rw [if_neg hnc]
    exact ih (k + 1) (le_trans hk (Nat.le_succ k))

theorem filter_enumFrom_split {α : Type} (t : List α) (k m : Nat) (P1 P2 : Nat × α → Bool)
    (h1 : ∀ p, P1 p = true → p.1 < m) (h2 : ∀ p, P2 p = true → m ≤ p.1) :
    (t.enumFrom k).filter (fun p => P1 p || P2 p)
      = (t.enumFrom k).filter P1 ++ (t.enumFrom k).filter P2 := by
  induction t generalizing k with
  | nil => simp
  | cons c cs ih =>
    rw [List.enumFrom_cons, List.filter_cons, List.filter_cons, List.filter_cons]
    by_cases hp1 : P1 (k, c) = true
    · have hp2 : ¬ P2 (k, c) = true := by
        intro h
        exact absurd (h2 _ h) (not_le.2 (h1 _ hp1))
      rw [if_pos (by simp [hp1]), if_pos hp1, if_neg hp2, ih (k + 1)]
      rfl
    · by_cases hp2 : P2 (k, c) = true
      · rw [if_pos (by simp [hp1, hp2]), if_neg hp1, if_pos hp2, ih (k + 1),
          filter_enumFrom_nil_of_ge cs (k + 1) m P1 h1 (le_trans (h2 _ hp2) (Nat.le_succ k))]
        rfl
      · rw [if_neg (by simp [hp1, hp2]), if_neg hp1, if_neg hp2]
        exact ih (k + 1)

theorem filter_enumFrom_interval {α : Type} (t : List α) (k a b : Nat) :
    (((t.enumFrom k).filter fun p => decide (a ≤ p.1) && decide (p.1 < b)).map Prod.snd)
      = (t.take (b - k)).drop (a - k) := by
  induction t generalizing k with
  | nil => simp
  | cons c cs ih =>
    rw [List.enumFrom_cons, List.filter_cons]
    by_cases ha : a ≤ k
    · by_cases hb : k < b
      · rw [if_pos (by simp [ha, hb]), List.map_cons, ih (k + 1)]
        have h1 : a - k = 0 := by omega
        have h2 : a - (k + 1) = 0 := by omega
        have h3 : b - k = (b - (k + 1)) + 1 := by omega
        rw [h1, h2, h3, List.take_succ_cons, List.drop_zero, List.drop_zero]
      · rw [if_neg (by simp [hb]), ih (k + 1)]
        have h3 : b - k = 0 := by omega
        have h4 : b - (k + 1) = 0 := by omega
        rw [h3, h4]
        simp
    · rw [if_neg (by simp [ha]), ih (k + 1)]
      rcases Nat.eq_zero_or_pos (b - k) with h0 | h0
      · have h4 : b - (k + 1) = 0 := by omega
        rw [h0, h4]
        simp
      · have h3 : b - k = (b - (k + 1)) + 1 := by omega
        have h4 : a - k = (a - (k + 1)) + 1 := by omega
        rw [h3, h4, List.take_succ_cons, List.drop_succ_cons]

theorem coveredBy_cons (sp : Span) (rest : List Span) (i : Nat) :
    coveredBy (sp :: rest) i
      = (decide (sp.1 ≤ (i : Int) ∧ (i : Int) < sp.2.1) || coveredBy rest i) := by
  rw [coveredBy, coveredBy, List.any_cons]

theorem le_of_coveredBy {rest : List Span} {m : Int} (hlb : ∀ sp ∈ rest, m ≤ sp.1)
    {i : Nat} (hC : coveredBy rest i = true) : m ≤ (i : Int) := by
  rw [coveredBy, List.any_eq_true] at hC
  obtain ⟨sp, hsp, hd⟩ := hC
  rw [decide_eq_true_eq] at hd
  exact le_trans (hlb sp hsp) hd.1

theorem covered_pointwise {s e : Int} {lab : List Char} {rest : List Span} {n : Int}
    (hn : 0 ≤ n) (hns : n ≤ s) (hse : s < e) (hlb : ∀ sp ∈ rest, e ≤ sp.1) (i : Nat) :
    (decide (n ≤ (i : Int)) && ! coveredBy ((s, e, lab) :: rest) i)
      = ((decide (n.toNat ≤ i) && decide (i < s.toNat))
          || (decide (e ≤ (i : Int)) && ! coveredBy rest i)) := by
  rw [coveredBy_cons]
  by_cases hC : coveredBy rest i = true
  · have hei : e ≤ (i : Int) := le_of_coveredBy hlb hC
    rw [hC]
    rw [Bool.eq_iff_iff]
    simp only [Bool.and_eq_true, Bool.or_eq_true, Bool.not_eq_true', Bool.or_true,
      Bool.not_true, Bool.and_false, decide_eq_true_eq, decide_eq_false_iff_not,
      Bool.false_eq_true, or_false, false_iff]
    omega
  · have hC' : coveredBy rest i = false := by
      cases h : coveredBy rest i
      · rfl
      · exact absurd h hC
    rw [hC']
    rw [Bool.eq_iff_iff]
    simp only [Bool.or_false, Bool.not_false, Bool.and_true, Bool.and_eq_true,
      Bool.or_eq_true, Bool.not_eq_true', decide_eq_true_eq, decide_eq_false_iff_not]
    omega

theorem gapSegs_flatten (text : List Char) (acc : List Span) (n : Int)
    (hn : 0 ≤ n) (hc : SpanChain n acc) :
    (gapSegs text acc n).flatten
      = ((text.enum.filter fun p =>
          decide (n ≤ (p.1 : Int)) && ! coveredBy acc p.1).map Prod.snd) := by
  induction acc generalizing n with
  | nil =>
    simp only [gapSegs, List.flatten_cons, List.flatten_nil, List.append_nil]
    rw [pySliceFrom_nonneg text hn]
    have hco : ∀ p ∈ text.enum, (decide (n ≤ (p.1 : Int)) && ! coveredBy [] p.1)
        = (decide (n.toNat ≤ p.1) && decide (p.1 < text.length)) := by
      intro p hp
      obtain ⟨i, x⟩ := p
      have hlt : i < text.length := (List.mem_enum hp).1
      simp only [coveredBy, List.any_nil, Bool.not_false, Bool.and_true]
      rw [Bool.eq_iff_iff]
      simp only [Bool.and_eq_true, decide_eq_true_eq]
      omega
    rw [List.filter_congr hco]
    rw [show text.enum = text.enumFrom 0 from rfl, filter_enumFrom_interval]
    simp
  | cons sp rest ih =>
    obtain ⟨s, e, lab⟩ := sp
    obtain ⟨hns0, hse0, hc'⟩ := hc
    have hns : n ≤ s := hns0
    have hse : s < e := hse0
    have hs0 : (0 : Int) ≤ s := le_trans hn hns
    have he0 : (0 : Int) ≤ e := le_of_lt (lt_of_le_of_lt hs0 hse)
    have hlb : ∀ sp ∈ rest, e ≤ sp.1 := spanChain_lb hc'
    simp only [gapSegs, List.flatten_cons]
    rw [pySlice_nonneg text hn hs0, ih e he0 hc']
    have hpt : ∀ p ∈ text.enum, (decide (n ≤ (p.1 : Int)) && ! coveredBy ((s, e, lab) :: rest) p.1)
        = ((fun p : Nat × Char => decide (n.toNat ≤ p.1) && decide (p.1 < s.toNat)) p
            || (fun p : Nat × Char => decide (e ≤ (p.1 : Int)) && ! coveredBy rest p.1) p) :=
      fun p _ => covered_pointwise hn hns hse hlb p.1
    rw [List.filter_congr hpt]
    rw [show text.enum = text.enumFrom 0 from rfl]
    rw [filter_enumFrom_split _ 0 e.toNat _ _
      (by intro p hp; simp only [Bool.and_eq_true, decide_eq_true_eq] at hp; omega)
      (by intro p hp; simp only [Bool.and_eq_true, decide_eq_true_eq] at hp; omega)]
    rw [List.map_append, filter_enumFrom_interval]
    simp

/-- C1: the redaction output is exactly the gap segments of the input
interleaved with the bracketed labels `[label]` of the accepted spans,
and those gap segments, concatenated, are exactly the characters of the
input lying outside every accepted span — each appearing once, unchanged,
in original order, none duplicated or dropped. -/
theorem c1_content_preservation (text : List Char) (spans : List Span) :
    redact text spans
      = weave (gapSegs text (sweepAccept (sortSpans spans) 0) 0)
          ((sweepAccept (sortSpans spans) 0).map fun sp => sp.2.2)
      ∧ (gapSegs text (sweepAccept (sortSpans spans) 0) 0).flatten
        = outsideChars text (sweepAccept (sortSpans spans) 0) := by
  constructor
  · rw [redact]
    exact redactLoop_eq_weave text (sortSpans spans) 0
  · rw [gapSegs_flatten text _ 0 le_rfl (sweepAccept_chain _ _), outsideChars]
    apply congrArg
    apply List.filter_congr
    intro p hp
    simp

theorem redactLoopE_ok (text : List Char) (l : List Span) (last_idx : Int) :
    redactLoopE text l last_idx = Except.ok (redactLoop text l last_idx) := by
  induction l generalizing last_idx with
  | nil => rfl
  | cons sp rest ih =>
    obtain ⟨s, e, lab⟩ := sp
    by_cases h : s ≥ e ∨ s < last_idx
    · simp only [redactLoopE, redactLoop, if_pos h]
      exact ih last_idx
    · simp only [redactLoopE, redactLoop, if_neg h, ih e]
      rfl

theorem redactLoop_length (text : List Char) (l : List Span) (last_idx : Int)
    (h0 : 0 ≤ last_idx) :
    (redactLoop text l last_idx).length
      ≤ (text.length - last_idx.toNat) + (l.map fun sp => sp.2.2.length + 2).sum := by
  induction l generalizing last_idx with
  | nil =>
    simp only [redactLoop, List.map_nil, List.sum_nil, Nat.add_zero]
    rw [pySliceFrom_nonneg text h0, List.length_drop]
  | cons sp rest ih =>
    obtain ⟨s, e, lab⟩ := sp
    by_cases h : s ≥ e ∨ s < last_idx
    · simp only [redactLoop, if_pos h, List.map_cons, List.sum_cons]
      have := ih last_idx h0
      omega
    · push_neg at h
      obtain ⟨hse, hls⟩ := h
      have hs0 : (0 : Int) ≤ s := le_trans h0 hls
      have he0 : (0 : Int) ≤ e := le_of_lt (lt_of_le_of_lt hs0 hse)
      simp only [redactLoop, if_neg (by push_neg; exact ⟨hse, hls⟩ : ¬ (s ≥ e ∨ s < last_idx)),
        List.map_cons, List.sum_cons, List.length_append]
      rw [pySlice_nonneg text h0 hs0]
      have h1 : ((text.take s.toNat).drop last_idx.toNat).length
          = min s.toNat text.length - last_idx.toNat := by
        rw [List.length_drop, List.length_take]
      have h2 : (bracket lab).length = lab.length + 2 := by
        simp [bracket]
      have h3 := ih e he0
      have h4 : last_idx.toNat ≤ s.toNat := by omega
      have h5 : s.toNat < e.toNat := by omega
      omega

/-- C7: the redaction sweep is total over every `(text, spans)` pair: its
error-monad model always returns `ok` (the loop body's primitive
operations — slicing, formatting, concatenation — cannot raise), and the
returned string is a string of bounded length, never an error value. -/
theorem c7_redaction_total (text : List Char) (spans : List Span) :
    redactE text spans = Except.ok (redact text spans)
      ∧ (redact text spans).length
        ≤ text.length + (spans.map fun sp => sp.2.2.length + 2).sum := by
  constructor
  · exact redactLoopE_ok text (sortSpans spans) 0
  · have hb := redactLoop_length text (sortSpans spans) 0 le_rfl
    have hperm : ((sortSpans spans).map fun sp => sp.2.2.length + 2).Perm
        (spans.map fun sp => sp.2.2.length + 2) :=
      (List.mergeSort_perm spans _).map _
    rw [List.Perm.sum_eq hperm] at hb
    rw [redact]
    omega

end Anonymizer

